import Mathlib

/-!
Verification of the transaction-interpretation pipeline of a Solana
wallet-monitoring bot.  The definitions below are shallow embeddings of the
TypeScript source: the Metaplex metadata decoder and resolver
(token-utils: decodeMetaplexMetadata, fetchMintDecimals,
fetchTokenNameAndDecimals) and the transaction handler
(tx-handler: processTransactionForTrades, processTransaction).

Byte buffers are lists of naturals; JavaScript numbers that hold token
amounts are modelled as rationals; fallible operations (Node Buffer reads
that throw on out-of-range access, fetches that may reject) are modelled
with Option, and the resolver's try/catch is modelled by mapping every
failing sub-step to the fallthrough that returns the sentinel.
-/

/-- Byte buffers: each entry is one byte value. -/
abbrev Bytes := List Nat

/-- Node Buffer.readUInt32LE: reads 4 bytes little-endian at `offset`;
Node throws ERR_OUT_OF_RANGE (modelled as `none`) when fewer than 4 bytes
are available at that offset. -/
def readUInt32LE (data : Bytes) (offset : Nat) : Option Nat :=
  if offset + 4 ≤ data.length then
    some (data.getD offset 0 + 256 * data.getD (offset + 1) 0 +
      65536 * data.getD (offset + 2) 0 + 16777216 * data.getD (offset + 3) 0)
  else none

/-- Node Buffer.readUInt8: throws (modelled `none`) when `offset` is out of
range. -/
def readUInt8 (data : Bytes) (offset : Nat) : Option Nat :=
  if offset < data.length then some (data.getD offset 0) else none

/-- Node Buffer.slice start stop: the bytes in [start, stop), clamped to the
buffer; never throws. -/
def bufSlice (data : Bytes) (start stop : Nat) : Bytes :=
  (data.drop start).take (stop - start)

/-- The source's global regex replace of NUL characters: removes every NUL
byte, wherever it occurs (not only trailing padding). -/
def stripNul (l : Bytes) : Bytes := l.filter (fun b => b != 0)

/-- decodeMetaplexMetadata from token-utils: skip the 65-byte fixed header
(1 + 32 + 32), read a 4-byte LE name length, slice that many name bytes,
read a 4-byte LE symbol length, slice that many symbol bytes, and remove
all NUL bytes from both.  A length read past the end of the buffer throws
(`none`); the slices clamp silently. -/
def decodeMetaplexMetadata (data : Bytes) : Option (Bytes × Bytes) :=
  match readUInt32LE data 65 with
  | none => none
  | some nameLength =>
    let name := stripNul (bufSlice data 69 (69 + nameLength))
    match readUInt32LE data (69 + nameLength) with
    | none => none
    | some symbolLength =>
      let symbol :=
        stripNul (bufSlice data (73 + nameLength) (73 + nameLength + symbolLength))
      some (name, symbol)

/-- A 4-byte little-endian encoding of a 32-bit value, used to synthesize
well-formed metadata buffers. -/
def le32 (k : Nat) : Bytes :=
  [k % 256, k / 256 % 256, k / 65536 % 256, k / 16777216 % 256]

theorem getD_append_len (l l2 : Bytes) (i : Nat) :
    (l ++ l2).getD (l.length + i) 0 = l2.getD i 0 := by
  induction l with
  | nil => simp
  | cons a t ih =>
    have h : t.length + 1 + i = (t.length + i) + 1 := by omega
    simp only [List.cons_append, List.length_cons, h, List.getD_cons_succ]
    exact ih

theorem drop_len_append (l l2 : Bytes) : (l ++ l2).drop l.length = l2 := by
  induction l with
  | nil => simp
  | cons a t ih => simp [ih]

theorem take_len_append (l l2 : Bytes) : (l ++ l2).take l.length = l := by
  induction l with
  | nil => simp
  | cons a t ih => simp [ih]

theorem readUInt32LE_at (pre rest : Bytes) (k off : Nat)
    (hk : k < 4294967296) (hoff : off = pre.length) :
    readUInt32LE (pre ++ (le32 k ++ rest)) off = some k := by
  subst hoff
  unfold readUInt32LE
  rw [if_pos (by simp [le32])]
  have e0 : (pre ++ (le32 k ++ rest)).getD pre.length 0 = (le32 k ++ rest).getD 0 0 := by
    simpa using getD_append_len pre (le32 k ++ rest) 0
  rw [e0, getD_append_len pre (le32 k ++ rest) 1, getD_append_len pre (le32 k ++ rest) 2,
    getD_append_len pre (le32 k ++ rest) 3]
  simp only [le32, List.cons_append, List.getD_cons_zero, List.getD_cons_succ,
    Option.some.injEq]
  omega

theorem bufSlice_at (pre mid rest : Bytes) (a b : Nat)
    (ha : a = pre.length) (hb : b = pre.length + mid.length) :
    bufSlice (pre ++ (mid ++ rest)) a b = mid := by
  subst ha; subst hb
  unfold bufSlice
  rw [drop_len_append]
  have h : pre.length + mid.length - pre.length = mid.length := by omega
  rw [h, take_len_append]

theorem readUInt32LE_eq_none (data : Bytes) (off : Nat) :
    readUInt32LE data off = none ↔ data.length < off + 4 := by
  unfold readUInt32LE
  split <;> simp <;> omega

theorem readUInt32LE_len (data : Bytes) (off k : Nat)
    (h : readUInt32LE data off = some k) : off + 4 ≤ data.length := by
  unfold readUInt32LE at h
  split at h
  · assumption
  · exact absurd h (by simp)

/-- A JavaScript Map with string keys, as an association list with unique
keys in insertion order.  Map.get (undefined when the key is absent). -/
def jsMapGet {β : Type} : List (String × β) → String → Option β
  | [], _ => none
  | p :: rest, k => if p.1 = k then some p.2 else jsMapGet rest k

/-- JavaScript Map.set: updating an existing key keeps its original
insertion position; a new key is appended at the end. -/
def jsMapSet {β : Type} : List (String × β) → String → β → List (String × β)
  | [], k, v => [(k, v)]
  | p :: rest, k, v => if p.1 = k then (k, v) :: rest else p :: jsMapSet rest k v

/-- JS String.prototype.trim whitespace characters, restricted to the ASCII
whitespace bytes that can occur in token names. -/
def isJsWhitespace (b : Nat) : Bool :=
  b == 9 || b == 10 || b == 11 || b == 12 || b == 13 || b == 32

/-- JS String.prototype.trim on a byte string: drop whitespace from both
ends. -/
def jsTrim (l : Bytes) : Bytes :=
  ((l.dropWhile isJsWhitespace).reverse.dropWhile isJsWhitespace).reverse

/-- TokenMetadata record from token-utils; name and symbol as byte strings. -/
structure TokenMetadata where
  name : Bytes
  symbol : Bytes
  decimals : Nat
deriving DecidableEq

/-- The fallback sentinel returned by fetchTokenNameAndDecimals when
resolution fails: name "Unknown", symbol "UNKNOWN", decimals 0. -/
def sentinel : TokenMetadata :=
  ⟨[85, 110, 107, 110, 111, 119, 110], [85, 78, 75, 78, 79, 87, 78], 0⟩

/-- The process-lifetime token metadata cache (a JS Map keyed by the mint
address string). -/
abbrev Cache := List (String × TokenMetadata)

/-- One observable behavior of a getAccountInfo call: the promise rejects,
the account is absent (null), or it is present with data bytes. -/
inductive FetchResult where
  | throws
  | absent
  | present (data : Bytes)
deriving DecidableEq

/-- The account-store collaborator as seen by one resolution: the outcome of
fetching the derived metadata address and the outcome of fetching the mint
account itself. -/
structure AccountStore where
  pdaFetch : FetchResult
  mintFetch : FetchResult
deriving DecidableEq

/-- fetchMintDecimals from token-utils: absent account yields decimals 0; a
present account is read at byte offset 44 (Node readUInt8 throws when the
data is shorter, modelled `none`); a rejecting fetch propagates (`none`). -/
def fetchMintDecimals : FetchResult → Option Nat
  | FetchResult.throws => none
  | FetchResult.absent => some 0
  | FetchResult.present data => readUInt8 data 44

/-- Result of one fetchTokenNameAndDecimals call: the returned metadata, the
cache afterwards, and how many getAccountInfo calls were issued. -/
structure ResolveOutcome where
  result : TokenMetadata
  cache : Cache
  fetches : Nat
deriving DecidableEq

/-- fetchTokenNameAndDecimals from token-utils.  Cache hit returns
immediately with no fetch.  Otherwise the try block fetches the derived
metadata account: a rejection is caught (sentinel); an absent account falls
through the if (sentinel); present data is decoded (a decode throw is
caught); then the mint account is fetched for decimals (a throw there is
caught); on full success the trimmed record is stored in the cache and
returned.  The sentinel is returned after the try/catch without touching
the cache. -/
def fetchTokenNameAndDecimals (store : AccountStore) (mintAddress : String)
    (cache : Cache) : ResolveOutcome :=
  match jsMapGet cache mintAddress with
  | some md => ⟨md, cache, 0⟩
  | none =>
    match store.pdaFetch with
    | FetchResult.throws => ⟨sentinel, cache, 1⟩
    | FetchResult.absent => ⟨sentinel, cache, 1⟩
    | FetchResult.present data =>
      match decodeMetaplexMetadata data with
      | none => ⟨sentinel, cache, 1⟩
      | some nsym =>
        match fetchMintDecimals store.mintFetch with
        | none => ⟨sentinel, cache, 2⟩
        | some d =>
          let td : TokenMetadata := ⟨jsTrim nsym.1, jsTrim nsym.2, d⟩
          ⟨td, jsMapSet cache mintAddress td, 2⟩

/-- One entry of preTokenBalances / postTokenBalances: account index, mint,
optional owner, and the optional uiAmount (null for zero-looking amounts). -/
structure TokenBalance where
  accountIndex : Nat
  mint : String
  owner : Option String
  uiAmount : Option ℚ
deriving DecidableEq

/-- The transaction meta section: native lamport balances by account
position and the two token balance snapshot collections (which web3.js may
omit, hence Option). -/
structure TxMeta where
  preBalances : List ℤ
  postBalances : List ℤ
  preTokenBalances : Option (List TokenBalance)
  postTokenBalances : Option (List TokenBalance)
deriving DecidableEq

/-- A parsed transaction: only the meta section is interpreted by the
handler. -/
structure Tx where
  meta : Option TxMeta
deriving DecidableEq

/-- A balance change reported for the watched wallet. -/
inductive Delta where
  | native (change : ℚ)
  | token (mint : String) (change : ℚ)
deriving DecidableEq

/-- The reporting outcome of processing one transaction, matching the error
taxonomy of the handler's console.error calls. -/
inductive Report where
  | transactionNotFound
  | missingTransactionMeta
  | ok
deriving DecidableEq

/-- The balance change of one post-state token entry: its uiAmount (null as
0, via the source's `|| 0`) minus the uiAmount of the first pre-state entry
with the same accountIndex (0 when there is none). -/
def entryChange (pre : List TokenBalance) (t : TokenBalance) : ℚ :=
  t.uiAmount.getD 0 -
    (match pre.find? (fun p => p.accountIndex == t.accountIndex) with
     | some p => p.uiAmount.getD 0
     | none => 0)

/-- One iteration of the post-state loop in processTransactionForTrades:
entries not owned by the target wallet are skipped, zero changes are
skipped, and otherwise the tokenChanges map entry for the mint is set. -/
def tcStep (pre : List TokenBalance) (target : String)
    (m : List (String × ℚ)) (t : TokenBalance) : List (String × ℚ) :=
  if t.owner = some target then
    if entryChange pre t ≠ 0 then jsMapSet m t.mint (entryChange pre t) else m
  else m

/-- The aggregated tokenChanges map built by processTransactionForTrades. -/
def tokenChanges (pre post : List TokenBalance) (target : String) :
    List (String × ℚ) :=
  post.foldl (tcStep pre target) []

/-- The native SOL change: postBalances[0] and preBalances[0] each divided
by 1e9, then subtracted (exact rational arithmetic). -/
def nativeChange (meta : TxMeta) : ℚ :=
  (meta.postBalances.headI : ℚ) / 1000000000 -
    (meta.preBalances.headI : ℚ) / 1000000000

/-- The deltas logged by processTransactionForTrades for a transaction with
meta: the native line when the native change is non-zero, then one token
line per tokenChanges entry, in map iteration (insertion) order. -/
def tradeDeltas (meta : TxMeta) (target : String) : List Delta :=
  (if nativeChange meta ≠ 0 then [Delta.native (nativeChange meta)] else []) ++
    (tokenChanges (meta.preTokenBalances.getD []) (meta.postTokenBalances.getD [])
      target).map (fun p => Delta.token p.1 p.2)

/-- processTransactionForTrades from tx-handler: a transaction without meta
is reported and produces no deltas; otherwise the deltas are computed and
logged. -/
def processTransactionForTrades (tx : Tx) (target : String) :
    Report × List Delta :=
  match tx.meta with
  | none => (Report.missingTransactionMeta, [])
  | some meta => (Report.ok, tradeDeltas meta target)

/-- processTransaction from tx-handler, with the getParsedTransaction RPC
result supplied as input: an absent transaction is reported as not found
and processing stops; otherwise processTransactionForTrades runs. -/
def processTransaction (fetched : Option Tx) (target : String) :
    Report × List Delta :=
  match fetched with
  | none => (Report.transactionNotFound, [])
  | some tx => processTransactionForTrades tx target

theorem jsMapGet_set_self {β : Type} (m : List (String × β)) (k : String) (v : β) :
    jsMapGet (jsMapSet m k v) k = some v := by
  induction m with
  | nil => simp [jsMapSet, jsMapGet]
  | cons p rest ih =>
    by_cases h : p.1 = k
    · simp [jsMapSet, h, jsMapGet]
    · simp [jsMapSet, h, jsMapGet, ih]

theorem jsMapGet_set_ne {β : Type} (m : List (String × β)) (k k2 : String) (v : β)
    (h : k2 ≠ k) : jsMapGet (jsMapSet m k v) k2 = jsMapGet m k2 := by
  have h2 : ¬ k = k2 := fun hh => h hh.symm
  induction m with
  | nil => simp [jsMapSet, jsMapGet, h2]
  | cons p rest ih =>
    by_cases hp : p.1 = k
    · rw [jsMapSet, if_pos hp, jsMapGet, jsMapGet, if_neg h2,
        if_neg (fun hh => h2 (hp.symm.trans hh))]
    · rw [jsMapSet, if_neg hp, jsMapGet, jsMapGet]
      by_cases hpk : p.1 = k2
      · simp [hpk]
      · simp [hpk, ih]

theorem keys_jsMapSet {β : Type} (m : List (String × β)) (k : String) (v : β) :
    (jsMapSet m k v).map Prod.fst =
      if k ∈ m.map Prod.fst then m.map Prod.fst else m.map Prod.fst ++ [k] := by
  induction m with
  | nil => simp [jsMapSet]
  | cons p rest ih =>
    by_cases h : p.1 = k
    · simp [jsMapSet, h]
    · have h2 : ¬ k = p.1 := fun hh => h hh.symm
      simp only [jsMapSet, if_neg h, List.map_cons, List.mem_cons, h2, false_or, ih]
      by_cases hk : k ∈ rest.map Prod.fst <;> simp [hk]

theorem mem_jsMapSet {β : Type} (m : List (String × β)) (k : String) (v : β)
    (p : String × β) (h : p ∈ jsMapSet m k v) : p = (k, v) ∨ p ∈ m := by
  induction m with
  | nil => simpa [jsMapSet] using h
  | cons q rest ih =>
    by_cases hq : q.1 = k
    · rw [jsMapSet, if_pos hq] at h
      rcases List.mem_cons.mp h with h1 | h1
      · exact Or.inl h1
      · exact Or.inr (List.mem_cons_of_mem _ h1)
    · rw [jsMapSet, if_neg hq] at h
      rcases List.mem_cons.mp h with h1 | h1
      · exact Or.inr (h1 ▸ List.mem_cons_self _ _)
      · rcases ih h1 with h2 | h2
        · exact Or.inl h2
        · exact Or.inr (List.mem_cons_of_mem _ h2)

/-- Spec-side description of the overwrite policy: the change reported for a
given mint is the change of the LAST post-state entry that is owned by the
target wallet, has that mint, and has a non-zero change (later zero-change
entries are skipped, not recorded). -/
def lastQualifying (pre : List TokenBalance) (target mint : String) :
    List TokenBalance → Option ℚ
  | [] => none
  | t :: rest =>
    match lastQualifying pre target mint rest with
    | some c => some c
    | none =>
      if t.owner = some target ∧ entryChange pre t ≠ 0 ∧ t.mint = mint then
        some (entryChange pre t)
      else none

/-- Spec-side description of the emission order: the mints of qualifying
entries (owned by the target, non-zero change), each at the position of its
first occurrence. -/
def firstInsertedMints (pre : List TokenBalance) (target : String)
    (post : List TokenBalance) : List String :=
  post.foldl
    (fun ks t =>
      if t.owner = some target ∧ entryChange pre t ≠ 0 then
        (if t.mint ∈ ks then ks else ks ++ [t.mint])
      else ks) []

theorem tokenChanges_get_aux (pre : List TokenBalance) (target mint : String) :
    ∀ (post : List TokenBalance) (m : List (String × ℚ)),
      jsMapGet (post.foldl (tcStep pre target) m) mint =
        match lastQualifying pre target mint post with
        | some c => some c
        | none => jsMapGet m mint := by
  intro post
  induction post with
  | nil => intro m; rfl
  | cons t rest ih =>
    intro m
    show jsMapGet (rest.foldl (tcStep pre target) (tcStep pre target m t)) mint = _
    rw [ih]
    cases hlq : lastQualifying pre target mint rest with
    | some c => simp [lastQualifying, hlq]
    | none =>
      by_cases h1 : t.owner = some target
      · by_cases h2 : entryChange pre t = 0
        · simp [lastQualifying, hlq, tcStep, h1, h2]
        · by_cases h3 : t.mint = mint
          · subst h3
            simp [lastQualifying, hlq, tcStep, h1, h2, jsMapGet_set_self]
          · have h4 : mint ≠ t.mint := fun hh => h3 hh.symm
            simp [lastQualifying, hlq, tcStep, h1, h2, h3,
              jsMapGet_set_ne _ _ _ _ h4]
      · simp [lastQualifying, hlq, tcStep, h1]

theorem tokenChanges_keys_aux (pre : List TokenBalance) (target : String) :
    ∀ (post : List TokenBalance) (m : List (String × ℚ)),
      (post.foldl (tcStep pre target) m).map Prod.fst =
        post.foldl
          (fun ks t =>
            if t.owner = some target ∧ entryChange pre t ≠ 0 then
              (if t.mint ∈ ks then ks else ks ++ [t.mint])
            else ks) (m.map Prod.fst) := by
  intro post
  induction post with
  | nil => intro m; rfl
  | cons t rest ih =>
    intro m
    show (rest.foldl (tcStep pre target) (tcStep pre target m t)).map Prod.fst = _
    rw [ih, List.foldl_cons]
    congr 1
    by_cases h1 : t.owner = some target
    · by_cases h2 : entryChange pre t = 0
      · rw [tcStep, if_pos h1, if_neg (not_not_intro h2), if_neg (fun hc => hc.2 h2)]
      · rw [tcStep, if_pos h1, if_pos h2, if_pos ⟨h1, h2⟩, keys_jsMapSet]
    · rw [tcStep, if_neg h1, if_neg (fun hc => h1 hc.1)]

theorem mem_tokenChanges_aux (pre : List TokenBalance) (target : String) :
    ∀ (post : List TokenBalance) (m : List (String × ℚ)) (p : String × ℚ),
      p ∈ post.foldl (tcStep pre target) m →
      p ∈ m ∨ ∃ t, t ∈ post ∧ t.owner = some target ∧ t.mint = p.1 := by
  intro post
  induction post with
  | nil => intro m p h; exact Or.inl h
  | cons t rest ih =>
    intro m p h
    have h0 : p ∈ tcStep pre target m t ∨
        ∃ u, u ∈ rest ∧ u.owner = some target ∧ u.mint = p.1 := ih _ p h
    rcases h0 with h1 | ⟨u, hu, ho, hm⟩
    · by_cases ha : t.owner = some target
      · by_cases hb : entryChange pre t = 0
        · rw [tcStep, if_pos ha, if_neg (by simpa using hb)] at h1
          exact Or.inl h1
        · rw [tcStep, if_pos ha, if_pos (by simpa using hb)] at h1
          rcases mem_jsMapSet _ _ _ _ h1 with h2 | h2
          · exact Or.inr ⟨t, List.mem_cons_self _ _, ha, by rw [h2]⟩
          · exact Or.inl h2
      · rw [tcStep, if_neg ha] at h1
        exact Or.inl h1
    · exact Or.inr ⟨u, List.mem_cons_of_mem _ hu, ho, hm⟩

/-- A well-formed metadata buffer (65-byte header, L1 = 4, name bytes
" A\x00B" = [32, 65, 0, 66], L2 = 1, symbol bytes "B" = [66]), used to
separate the decoder's actual post-processing from the claimed one. -/
def bufTrimTest : Bytes :=
  List.replicate 65 0 ++ [4, 0, 0, 0] ++ [32, 65, 0, 66] ++ [1, 0, 0, 0] ++ [66]

/-- Claim C2 (counterexample): on the well-formed buffer whose declared name
bytes are " A\x00B" ([32, 65, 0, 66]), the claim predicts the returned name
is those bytes with trailing NUL padding stripped and surrounding
whitespace trimmed, i.e. "A\x00B" = [65, 0, 66]; the decoder actually
removes the embedded NUL and keeps the leading space, returning
" AB" = [32, 65, 66]. -/
theorem claim_C2_counterexample :
    decodeMetaplexMetadata bufTrimTest = some ([32, 65, 66], [66]) ∧
    ([32, 65, 66] : Bytes) ≠ [65, 0, 66] := by
  constructor
  · decide
  · decide

/-- Claim C2 (amended): for every well-formed buffer (65-byte header, 4-byte
LE length, L1 name bytes, 4-byte LE length, L2 symbol bytes),
decodeMetaplexMetadata returns the name and symbol bytes with every NUL
byte removed (not only trailing padding) and with no whitespace trimming
(trimming is applied afterwards by the resolver, not by the decoder). -/
theorem claim_C2_theorem (hdr n s : Bytes) (hh : hdr.length = 65)
    (hn : n.length < 4294967296) (hs : s.length < 4294967296) :
    decodeMetaplexMetadata (hdr ++ le32 n.length ++ n ++ le32 s.length ++ s) =
      some (stripNul n, stripNul s) := by
  have e1 : hdr ++ le32 n.length ++ n ++ le32 s.length ++ s =
      hdr ++ (le32 n.length ++ (n ++ (le32 s.length ++ s))) := by
    simp [List.append_assoc]
  have h1 : readUInt32LE (hdr ++ le32 n.length ++ n ++ le32 s.length ++ s) 65 =
      some n.length := by
    rw [e1]; exact readUInt32LE_at hdr _ n.length 65 hn hh.symm
  have e2 : hdr ++ le32 n.length ++ n ++ le32 s.length ++ s =
      (hdr ++ le32 n.length) ++ (n ++ (le32 s.length ++ s)) := by
    simp [List.append_assoc]
  have hname : bufSlice (hdr ++ le32 n.length ++ n ++ le32 s.length ++ s)
      69 (69 + n.length) = n := by
    rw [e2]
    exact bufSlice_at (hdr ++ le32 n.length) n (le32 s.length ++ s) 69 (69 + n.length)
      (by simp only [List.length_append, hh, le32, List.length_cons, List.length_nil])
      (by simp only [List.length_append, hh, le32, List.length_cons, List.length_nil])
  have e3 : hdr ++ le32 n.length ++ n ++ le32 s.length ++ s =
      (hdr ++ le32 n.length ++ n) ++ (le32 s.length ++ s) := by
    simp [List.append_assoc]
  have h2 : readUInt32LE (hdr ++ le32 n.length ++ n ++ le32 s.length ++ s)
      (69 + n.length) = some s.length := by
    rw [e3]
    exact readUInt32LE_at (hdr ++ le32 n.length ++ n) s s.length (69 + n.length) hs
      (by simp only [List.length_append, hh, le32, List.length_cons, List.length_nil])
  have e4 : hdr ++ le32 n.length ++ n ++ le32 s.length ++ s =
      (hdr ++ le32 n.length ++ n ++ le32 s.length) ++ (s ++ []) := by
    simp [List.append_assoc]
  have hsym : bufSlice (hdr ++ le32 n.length ++ n ++ le32 s.length ++ s)
      (73 + n.length) (73 + n.length + s.length) = s := by
    rw [e4]
    exact bufSlice_at (hdr ++ le32 n.length ++ n ++ le32 s.length) s [] _ _
      (by simp only [List.length_append, hh, le32, List.length_cons, List.length_nil]; omega)
      (by simp only [List.length_append, hh, le32, List.length_cons, List.length_nil]; omega)
  simp only [decodeMetaplexMetadata, h1, h2, hname, hsym]

/-- Claim C2 (witness): the amended decode theorem applied to a concrete
well-formed buffer. -/
theorem claim_C2_witness :
    decodeMetaplexMetadata
        (List.replicate 65 0 ++ le32 2 ++ [32, 65] ++ le32 1 ++ [66]) =
      some (stripNul [32, 65], stripNul [66]) :=
  claim_C2_theorem (List.replicate 65 0) [32, 65] [66] (by decide) (by decide) (by decide)

/-- A buffer that is 9 bytes too short for its declared fields: 65-byte
header, L1 = 0, no name bytes, L2 = 10, but only one symbol byte. -/
def bufTruncatedSymbol : Bytes :=
  List.replicate 65 0 ++ [0, 0, 0, 0] ++ [10, 0, 0, 0] ++ [65]

/-- Claim C3 (counterexample): this 74-byte buffer is shorter than the fixed
65-byte prefix plus the two length-prefixed fields it declares
(65 + 4 + 0 + 4 + 10 = 83 bytes), yet decodeMetaplexMetadata does not fail:
the symbol slice silently clamps and decode returns a truncated symbol. -/
theorem claim_C3_counterexample :
    bufTruncatedSymbol.length = 74 ∧
    readUInt32LE bufTruncatedSymbol 65 = some 0 ∧
    readUInt32LE bufTruncatedSymbol 69 = some 10 ∧
    bufTruncatedSymbol.length < 65 + (4 + 0) + (4 + 10) ∧
    decodeMetaplexMetadata bufTruncatedSymbol = some ([], [65]) := by
  refine ⟨by decide, by decide, by decide, by decide, by decide⟩

/-- Claim C3 (amended): decodeMetaplexMetadata fails exactly when the buffer
cannot supply the 4-byte name length, the declared L1 name bytes, and the
4-byte symbol length, i.e. when it is shorter than 69 bytes or shorter than
73 + L1 bytes.  In particular a buffer holding fewer bytes than the
declared name length L1 fails, but a buffer truncated only within the
declared symbol bytes succeeds with a silently truncated symbol. -/
theorem claim_C3_theorem (data : Bytes) :
    decodeMetaplexMetadata data = none ↔
      data.length < 69 ∨
        ∃ L1, readUInt32LE data 65 = some L1 ∧ data.length < 73 + L1 := by
  cases h1 : readUInt32LE data 65 with
  | none =>
    have hl : data.length < 69 := by
      have h := (readUInt32LE_eq_none data 65).mp h1
      omega
    simp [decodeMetaplexMetadata, h1, hl]
  | some L1 =>
    cases h2 : readUInt32LE data (69 + L1) with
    | none =>
      have hl : data.length < 69 + L1 + 4 := by
        have h := (readUInt32LE_eq_none data (69 + L1)).mp h2
        omega
      simp only [decodeMetaplexMetadata, h1, h2, true_iff]
      exact Or.inr ⟨L1, rfl, by omega⟩
    | some L2 =>
      have hge : 65 + 4 ≤ data.length := readUInt32LE_len data 65 L1 h1
      have hge2 : (69 + L1) + 4 ≤ data.length := readUInt32LE_len data (69 + L1) L2 h2
      simp only [decodeMetaplexMetadata, h1, h2]
      simp
      omega

/-- Pre-state for the duplicate-mint scenario: accountIndex 2 already held
7 units of mint "M". -/
def preDup : List TokenBalance := [⟨2, "M", some "w", some 7⟩]

/-- Post-state for the duplicate-mint scenario: two entries owned by the
watched wallet share mint "M"; the earlier one (accountIndex 1) changed by
+5, the later one (accountIndex 2) did not change. -/
def postDup : List TokenBalance :=
  [⟨1, "M", some "w", some 5⟩, ⟨2, "M", some "w", some 7⟩]

/-- Claim C5 (counterexample): two post-state entries owned by the watched
wallet share mint "M" and the later one in iteration order has change 0.
Per the claim the later entry overwrites the earlier map entry, so only the
last entry's change (0, hence nothing) would be reported; the code actually
skips the zero-change entry before the map set, so the earlier entry's
change 5 is reported. -/
theorem claim_C5_counterexample :
    entryChange preDup ⟨2, "M", some "w", some 7⟩ = 0 ∧
    tokenChanges preDup postDup "w" = [("M", 5)] := by
  constructor
  · norm_num [entryChange, preDup, List.find?]
  · simp [tokenChanges, preDup, postDup, tcStep, entryChange, jsMapSet, List.find?]

/-- Claim C5 (amended): a later duplicate-mint entry overwrites the earlier
map entry only when its own change is non-zero — the reported change for a
mint is the change of the last post-state entry owned by the wallet with
that mint and a non-zero change (later zero-change duplicates are skipped
and leave the earlier recorded change in place) — and the per-asset deltas
are emitted in the order their mints were first inserted into the map. -/
theorem claim_C5_theorem (pre post : List TokenBalance) (target mint : String) :
    jsMapGet (tokenChanges pre post target) mint =
        lastQualifying pre target mint post ∧
    (tokenChanges pre post target).map Prod.fst =
        firstInsertedMints pre target post := by
  constructor
  · rw [tokenChanges, tokenChanges_get_aux]
    cases lastQualifying pre target mint post <;> rfl
  · rw [tokenChanges, tokenChanges_keys_aux]
    rfl

/-- Claim C6: every delta emitted by processTransactionForTrades is either
the native delta or a token delta whose mint occurs in a post-state entry
owned by the watched wallet. -/
theorem claim_C6_theorem (tx : Tx) (target : String) (d : Delta)
    (h : d ∈ (processTransactionForTrades tx target).2) :
    (∃ c, d = Delta.native c) ∨
      ∃ meta tb, tx.meta = some meta ∧ tb ∈ meta.postTokenBalances.getD [] ∧
        tb.owner = some target ∧ ∃ c, d = Delta.token tb.mint c := by
  cases htx : tx.meta with
  | none => simp [processTransactionForTrades, htx] at h
  | some meta =>
    simp only [processTransactionForTrades, htx] at h
    rw [tradeDeltas] at h
    rcases List.mem_append.mp h with h1 | h1
    · left
      by_cases hz : nativeChange meta ≠ 0
      · rw [if_pos hz] at h1
        exact ⟨nativeChange meta, List.mem_singleton.mp h1⟩
      · rw [if_neg hz] at h1
        cases h1
    · rcases List.mem_map.mp h1 with ⟨p, hp, hd⟩
      rw [tokenChanges] at hp
      rcases mem_tokenChanges_aux (meta.preTokenBalances.getD []) target
          (meta.postTokenBalances.getD []) [] p hp with h4 | ⟨t, ht, ho, hm⟩
      · cases h4
      · right
        exact ⟨meta, t, rfl, ht, ho, p.2, by rw [← hd, hm]⟩

/-- A transaction whose only balance movement is a token entry owned by
wallet "w": mint "M" went from 0 to 5 on account index 1. -/
def txTokenWitness : Tx :=
  ⟨some ⟨[0], [0], some [], some [⟨1, "M", some "w", some 5⟩]⟩⟩

/-- Claim C6 (witness): the invariant applied to the concrete transaction
whose emitted delta is the token delta for mint "M". -/
theorem claim_C6_witness :
    (∃ c, Delta.token "M" (5 : ℚ) = Delta.native c) ∨
      ∃ meta tb, txTokenWitness.meta = some meta ∧
        tb ∈ meta.postTokenBalances.getD [] ∧ tb.owner = some "w" ∧
        ∃ c, Delta.token "M" (5 : ℚ) = Delta.token tb.mint c :=
  claim_C6_theorem txTokenWitness "w" (Delta.token "M" 5)
    (by simp [processTransactionForTrades, txTokenWitness, tradeDeltas, nativeChange,
      tokenChanges, tcStep, entryChange, jsMapSet, List.find?])

theorem native_mem_tradeDeltas (meta : TxMeta) (target : String) (c : ℚ) :
    Delta.native c ∈ tradeDeltas meta target ↔
      nativeChange meta ≠ 0 ∧ c = nativeChange meta := by
  rw [tradeDeltas]
  constructor
  · intro h
    rcases List.mem_append.mp h with h1 | h1
    · by_cases hz : nativeChange meta ≠ 0
      · rw [if_pos hz] at h1
        exact ⟨hz, Delta.native.inj (List.mem_singleton.mp h1)⟩
      · rw [if_neg hz] at h1
        cases h1
    · exfalso
      rcases List.mem_map.mp h1 with ⟨p, _, hp⟩
      simp at hp
  · rintro ⟨hz, rfl⟩
    refine List.mem_append.mpr (Or.inl ?_)
    rw [if_pos hz]
    exact List.mem_singleton.mpr rfl

theorem nativeChange_eq (meta : TxMeta) :
    nativeChange meta =
      ((meta.postBalances.headI - meta.preBalances.headI : ℤ) : ℚ) / 1000000000 := by
  rw [nativeChange]
  push_cast
  ring

theorem nativeChange_ne_zero_iff (meta : TxMeta) :
    nativeChange meta ≠ 0 ↔ meta.postBalances.headI ≠ meta.preBalances.headI := by
  rw [nativeChange_eq, div_ne_zero_iff]
  constructor
  · intro h he
    apply h.1
    rw [he]
    simp
  · intro h
    refine ⟨?_, by norm_num⟩
    intro h0
    apply h
    have h1 : (meta.postBalances.headI - meta.preBalances.headI : ℤ) = 0 := by
      exact_mod_cast h0
    omega

/-- Claim C7: for a transaction with meta present (and the balance arrays
non-empty, as in any real transaction), a native delta is emitted iff
postBalances[0] differs from preBalances[0], and the emitted native change
equals (postBalances[0] - preBalances[0]) / 10^9 exactly. -/
theorem claim_C7_theorem (meta : TxMeta) (target : String)
    (_hpre : meta.preBalances ≠ []) (_hpost : meta.postBalances ≠ []) :
    ((∃ c, Delta.native c ∈ (processTransactionForTrades ⟨some meta⟩ target).2) ↔
      meta.postBalances.headI ≠ meta.preBalances.headI) ∧
    ∀ c, Delta.native c ∈ (processTransactionForTrades ⟨some meta⟩ target).2 →
      c = ((meta.postBalances.headI - meta.preBalances.headI : ℤ) : ℚ) / 1000000000 := by
  have hp : (processTransactionForTrades ⟨some meta⟩ target).2 =
      tradeDeltas meta target := rfl
  rw [hp]
  constructor
  · constructor
    · rintro ⟨c, hc⟩
      exact (nativeChange_ne_zero_iff meta).mp
        ((native_mem_tradeDeltas meta target c).mp hc).1
    · intro hne
      exact ⟨nativeChange meta, (native_mem_tradeDeltas meta target _).mpr
        ⟨(nativeChange_ne_zero_iff meta).mpr hne, rfl⟩⟩
  · intro c hc
    rw [((native_mem_tradeDeltas meta target c).mp hc).2, nativeChange_eq]

/-- The transaction meta of the spec's native scenario: preBalances[0] =
2000000000 lamports, postBalances[0] = 1500000000 lamports, no token
entries. -/
def metaNativeWitness : TxMeta := ⟨[2000000000], [1500000000], some [], some []⟩

/-- Claim C7 (witness): the theorem applied to the concrete scenario where
half a SOL left the wallet. -/
theorem claim_C7_witness :
    ∃ c, Delta.native c ∈ (processTransactionForTrades ⟨some metaNativeWitness⟩ "w").2 :=
  ((claim_C7_theorem metaNativeWitness "w" (by decide) (by decide)).1).mpr (by decide)

/-- Claim C9: an absent getParsedTransaction result is reported as
TransactionNotFound with no deltas; a present transaction whose meta
section is absent is reported as MissingTransactionMeta with no deltas. -/
theorem claim_C9_theorem (target : String) :
    processTransaction none target = (Report.transactionNotFound, []) ∧
    processTransaction (some ⟨none⟩) target = (Report.missingTransactionMeta, []) :=
  ⟨rfl, rfl⟩

/-- A collaborator behavior where both the derived metadata account and the
mint account are absent. -/
def storeAbsent : AccountStore := ⟨FetchResult.absent, FetchResult.absent⟩

/-- Claim C1 (counterexample): with the metadata account absent and an empty
cache, the first call returns the sentinel but does NOT store it under the
identifier (the cache still has no entry for "m"), and a second call with
the same identifier performs a fetch again instead of the claimed zero
additional fetches. -/
theorem claim_C1_counterexample :
    (fetchTokenNameAndDecimals storeAbsent "m" []).result = sentinel ∧
    jsMapGet (fetchTokenNameAndDecimals storeAbsent "m" []).cache "m" = none ∧
    (fetchTokenNameAndDecimals storeAbsent "m"
        (fetchTokenNameAndDecimals storeAbsent "m" []).cache).fetches ≠ 0 := by
  refine ⟨rfl, rfl, by decide⟩

/-- Claim C1 (amended): when the account-store fetch of the derived metadata
address returns absent for an uncached identifier, the resolver returns the
sentinel Unknown/UNKNOWN/0 but does NOT store it in the cache: the cache is
returned unchanged, and a subsequent call with the same identifier performs
one additional fetch (repeating the lookup) rather than zero. -/
theorem claim_C1_theorem (store : AccountStore) (mint : String) (cache : Cache)
    (hpda : store.pdaFetch = FetchResult.absent)
    (h : jsMapGet cache mint = none) :
    fetchTokenNameAndDecimals store mint cache = ⟨sentinel, cache, 1⟩ ∧
    fetchTokenNameAndDecimals store mint
        (fetchTokenNameAndDecimals store mint cache).cache =
      ⟨sentinel, cache, 1⟩ := by
  have h1 : fetchTokenNameAndDecimals store mint cache = ⟨sentinel, cache, 1⟩ := by
    simp [fetchTokenNameAndDecimals, h, hpda]
  exact ⟨h1, by rw [h1]; exact h1⟩

/-- Claim C1 (witness): the amended behavior at the concrete absent store
and empty cache. -/
theorem claim_C1_witness :
    fetchTokenNameAndDecimals storeAbsent "m" [] = ⟨sentinel, [], 1⟩ ∧
    fetchTokenNameAndDecimals storeAbsent "m"
        (fetchTokenNameAndDecimals storeAbsent "m" []).cache =
      ⟨sentinel, [], 1⟩ :=
  claim_C1_theorem storeAbsent "m" [] rfl rfl

/-- Claim C4: on a cache miss, whatever the collaborator does (absent
record, rejecting fetch, undecodable bytes, failing decimals read), the
resolver never lets a failure escape: it returns either the sentinel or the
successfully decoded, trimmed metadata. -/
theorem claim_C4_theorem (store : AccountStore) (mint : String) (cache : Cache)
    (h : jsMapGet cache mint = none) :
    (fetchTokenNameAndDecimals store mint cache).result = sentinel ∨
      ∃ data nb sb d, store.pdaFetch = FetchResult.present data ∧
        decodeMetaplexMetadata data = some (nb, sb) ∧
        fetchMintDecimals store.mintFetch = some d ∧
        (fetchTokenNameAndDecimals store mint cache).result =
          ⟨jsTrim nb, jsTrim sb, d⟩ := by
  cases hpda : store.pdaFetch with
  | throws => exact Or.inl (by simp [fetchTokenNameAndDecimals, h, hpda])
  | absent => exact Or.inl (by simp [fetchTokenNameAndDecimals, h, hpda])
  | present data =>
    cases hdec : decodeMetaplexMetadata data with
    | none => exact Or.inl (by simp [fetchTokenNameAndDecimals, h, hpda, hdec])
    | some nsym =>
      cases hmd : fetchMintDecimals store.mintFetch with
      | none => exact Or.inl (by simp [fetchTokenNameAndDecimals, h, hpda, hdec, hmd])
      | some d =>
        exact Or.inr ⟨data, nsym.1, nsym.2, d, rfl, by rw [hdec], rfl,
          by simp [fetchTokenNameAndDecimals, h, hpda, hdec, hmd]⟩

/-- Claim C4 (witness): the degradation theorem at the concrete absent
store and empty cache. -/
theorem claim_C4_witness :
    (fetchTokenNameAndDecimals storeAbsent "m" []).result = sentinel ∨
      ∃ data nb sb d, storeAbsent.pdaFetch = FetchResult.present data ∧
        decodeMetaplexMetadata data = some (nb, sb) ∧
        fetchMintDecimals storeAbsent.mintFetch = some d ∧
        (fetchTokenNameAndDecimals storeAbsent "m" []).result =
          ⟨jsTrim nb, jsTrim sb, d⟩ :=
  claim_C4_theorem storeAbsent "m" [] rfl

/-- A failed resolution, as the code can experience it: the derived
metadata account is absent, its fetch rejects, its bytes fail to decode, or
the decimals read fails. -/
def resolutionFails (store : AccountStore) : Prop :=
  store.pdaFetch = FetchResult.absent ∨ store.pdaFetch = FetchResult.throws ∨
    (∃ data, store.pdaFetch = FetchResult.present data ∧
      decodeMetaplexMetadata data = none) ∨
    fetchMintDecimals store.mintFetch = none

/-- Claim C8: when the cache already contains the identifier, the resolver
returns the cached metadata immediately, with zero fetches and an unchanged
cache — so a repeated resolution against a warm cache is a pure lookup. -/
theorem claim_C8_theorem (store : AccountStore) (mint : String) (cache : Cache)
    (md : TokenMetadata) (h : jsMapGet cache mint = some md) :
    fetchTokenNameAndDecimals store mint cache = ⟨md, cache, 0⟩ := by
  simp [fetchTokenNameAndDecimals, h]

/-- A warm cache holding metadata for mint "m". -/
def cacheWitness : Cache := [("m", ⟨[78], [83], 3⟩)]

/-- Claim C8 (witness): the cache-hit theorem at a concrete warm cache. -/
theorem claim_C8_witness :
    fetchTokenNameAndDecimals storeAbsent "m" cacheWitness =
      ⟨⟨[78], [83], 3⟩, cacheWitness, 0⟩ :=
  claim_C8_theorem storeAbsent "m" cacheWitness ⟨[78], [83], 3⟩ (by decide)

/-- Claim C10: whenever resolution fails for an uncached identifier, the
resolver returns the sentinel and leaves the cache completely unchanged;
and whenever a call changes the cache, the stored value is the successfully
decoded, trimmed metadata of that resolution — the cache is written only on
successful resolution, never with the failure fallback. -/
theorem claim_C10_theorem :
    (∀ (store : AccountStore) (mint : String) (cache : Cache),
      jsMapGet cache mint = none → resolutionFails store →
        (fetchTokenNameAndDecimals store mint cache).result = sentinel ∧
        (fetchTokenNameAndDecimals store mint cache).cache = cache) ∧
    (∀ (store : AccountStore) (mint : String) (cache : Cache),
      (fetchTokenNameAndDecimals store mint cache).cache ≠ cache →
        ∃ data nb sb d, store.pdaFetch = FetchResult.present data ∧
          decodeMetaplexMetadata data = some (nb, sb) ∧
          fetchMintDecimals store.mintFetch = some d ∧
          (fetchTokenNameAndDecimals store mint cache).result =
            ⟨jsTrim nb, jsTrim sb, d⟩ ∧
          (fetchTokenNameAndDecimals store mint cache).cache =
            jsMapSet cache mint ⟨jsTrim nb, jsTrim sb, d⟩) := by
  constructor
  · intro store mint cache h hf
    cases hpda : store.pdaFetch with
    | absent => constructor <;> simp [fetchTokenNameAndDecimals, h, hpda]
    | throws => constructor <;> simp [fetchTokenNameAndDecimals, h, hpda]
    | present data =>
      cases hdec : decodeMetaplexMetadata data with
      | none => constructor <;> simp [fetchTokenNameAndDecimals, h, hpda, hdec]
      | some nsym =>
        cases hmd : fetchMintDecimals store.mintFetch with
        | none => constructor <;> simp [fetchTokenNameAndDecimals, h, hpda, hdec, hmd]
        | some d =>
          exfalso
          rcases hf with hf | hf | ⟨dd, hdd, hdd2⟩ | hf
          · rw [hpda] at hf; simp at hf
          · rw [hpda] at hf; simp at hf
          · rw [hpda] at hdd
            injection hdd with he
            subst he
            rw [hdec] at hdd2
            simp at hdd2
          · rw [hmd] at hf; simp at hf
  · intro store mint cache hne
    cases hget : jsMapGet cache mint with
    | some md =>
      exact absurd (by simp [fetchTokenNameAndDecimals, hget]) hne
    | none =>
      cases hpda : store.pdaFetch with
      | absent => exact absurd (by simp [fetchTokenNameAndDecimals, hget, hpda]) hne
      | throws => exact absurd (by simp [fetchTokenNameAndDecimals, hget, hpda]) hne
      | present data =>
        cases hdec : decodeMetaplexMetadata data with
        | none => exact absurd (by simp [fetchTokenNameAndDecimals, hget, hpda, hdec]) hne
        | some nsym =>
          cases hmd : fetchMintDecimals store.mintFetch with
          | none =>
            exact absurd (by simp [fetchTokenNameAndDecimals, hget, hpda, hdec, hmd]) hne
          | some d =>
            refine ⟨data, nsym.1, nsym.2, d, rfl, by rw [hdec], rfl, ?_, ?_⟩ <;>
              simp [fetchTokenNameAndDecimals, hget, hpda, hdec, hmd]

/-- Claim C10 (witness): the failure half of the theorem at the concrete
absent store and empty cache. -/
theorem claim_C10_witness :
    (fetchTokenNameAndDecimals storeAbsent "m" []).result = sentinel ∧
    (fetchTokenNameAndDecimals storeAbsent "m" []).cache = [] :=
  claim_C10_theorem.1 storeAbsent "m" [] rfl (Or.inl rfl)
